import Mathlib

/-!
Verification of the PDR/IC3 unsat-core generalization engine
(`src/muz_qe/pdr_generalizers.cpp`).

The five generalization strategies of the source file are embedded as
executable Lean functions over a symbolic expression AST.  External
collaborators that are not part of the source file (the inductiveness
oracle `check_inductive`, the Farkas interpolation learner, the SMT
kernel, the pdr_manager/datalog term utilities) are modelled as explicit
function parameters or as small definitions marked "Modelled from the
spec".  Machine-word subtleties of the C++ (unsigned wrap-around in the
induction-hypothesis loop) are modelled explicitly where they matter.

Modelling choices for the term language: the hash-consed n-ary
`and`/`or` applications of the source are represented by right-nested
binary spines built by `mkAnd`/`mkOr`, and n-ary function application by
a curried application spine built by `mkApp`; structural equality of the
AST models the pointer equality of hash-consed terms.
-/

set_option autoImplicit false

/-- Sorts of the symbolic term language: booleans, arithmetic sorts and
an indexed family of other sorts. -/
inductive ESort where
  | bool : ESort
  | int : ESort
  | real : ESort
  | other : Nat → ESort
deriving DecidableEq, Repr

/-- Function declaration: name, domain sorts and range sort
(`func_decl` of the source; arity is the domain length). -/
structure FuncDecl where
  name : String
  domain : List ESort
  range : ESort
deriving DecidableEq, Repr

/-- Symbolic expressions, a shallow model of the hash-consed `expr` terms
manipulated by `pdr_generalizers.cpp`. -/
inductive Exp where
  | tt : Exp
  | ff : Exp
  | num : Rat → Bool → Exp
  | var : Nat → ESort → Exp
  | notE : Exp → Exp
  | andB : Exp → Exp → Exp
  | orB : Exp → Exp → Exp
  | eqE : Exp → Exp → Exp
  | impliesE : Exp → Exp → Exp
  | iffE : Exp → Exp → Exp
  | le : Exp → Exp → Exp
  | ge : Exp → Exp → Exp
  | modE : Exp → Exp → Exp
  | uminus : Exp → Exp
  | app0 : FuncDecl → Exp
  | ap : Exp → Exp → Exp
  | existsQ : List ESort → Exp → Exp
  | forallQ : List ESort → Exp → Exp
deriving DecidableEq, Repr

/-- Three-valued solver answer (`lbool` of the source). -/
inductive LBool where
  | lFalse : LBool
  | lTrue : LBool
  | lUndef : LBool
deriving DecidableEq, Repr

/-- Sort of an expression, modelling `m.get_sort` / `a.is_int`.  A
curried application spine has the range sort of its head symbol. -/
def sortOf : Exp → ESort
  | .tt => .bool
  | .ff => .bool
  | .num _ isInt => if isInt then .int else .real
  | .var _ s => s
  | .notE _ => .bool
  | .andB _ _ => .bool
  | .orB _ _ => .bool
  | .eqE _ _ => .bool
  | .impliesE _ _ => .bool
  | .iffE _ _ => .bool
  | .le _ _ => .bool
  | .ge _ _ => .bool
  | .modE _ _ => .int
  | .uminus e => sortOf e
  | .app0 f => f.range
  | .ap g _ => sortOf g
  | .existsQ _ _ => .bool
  | .forallQ _ _ => .bool

/-- Numeral recognizer, modelling `a.is_numeral(e, r)`. -/
def numOf : Exp → Option Rat
  | .num r _ => some r
  | _ => none

/-- Application of a function declaration to an argument list,
modelling `m.mk_app(f, args)` as a curried spine. -/
def mkApp (f : FuncDecl) (args : List Exp) : Exp :=
  args.foldl Exp.ap (Exp.app0 f)

/-- Modelled from the spec: the external conjunction builder
`pm.mk_and` of the pdr manager ("let B = conjunction of the core's
literals"); the empty conjunction is true and a singleton conjunction is
the literal itself. -/
def mkAnd : List Exp → Exp
  | [] => Exp.tt
  | [e] => e
  | e :: es => Exp.andB e (mkAnd es)

/-- Modelled from the spec: the external disjunction builder
`pm.mk_or` of the pdr manager ("reassemble the disjunction"). -/
def mkOr : List Exp → Exp
  | [] => Exp.ff
  | [e] => e
  | e :: es => Exp.orB e (mkOr es)

/-- Modelled from the spec: the external `pm.get_or` of the pdr manager
("decompose B's top-level clause structure into disjuncts Bs[i]"):
collects the disjuncts of the top-level disjunction spine. -/
def getOr : Exp → List Exp
  | .orB a b => getOr a ++ getOr b
  | e => [e]

/-- Modelled from the spec: the external `datalog::flatten_and`
("flatten it back into a flat literal sequence"): collects the
conjuncts of a conjunction spine. -/
def flattenAnd : Exp → List Exp
  | .andB a b => flattenAnd a ++ flattenAnd b
  | e => [e]

/-- Modelled from the spec: the external inductiveness oracle
`check_inductive(level, core, uses_level) -> bool`, which may also
refine `uses_level`.  The first argument is the index of the oracle
call within one generalizer invocation, so that an oracle value can
describe any sequence of answers of the opaque external solver. -/
abbrev Oracle := Nat → Nat → List Exp → Bool → Bool × Bool

/-- One recorded `check_inductive` call: level queried, core queried,
and the boolean answer. -/
abbrev CheckCall := Nat × List Exp × Bool

-- ------------------------
-- core_bool_inductive_generalizer (source lines 37-63)

/-- Loop state of `core_bool_inductive_generalizer::operator()`:
the working core, the scan position `i`, the failure counter, the
`processed` vector, the `uses_level` flag, the number of oracle calls
made so far and the trace of those calls. -/
structure BGState where
  core : List Exp
  i : Nat
  numFailures : Nat
  processed : List Exp
  ul : Bool
  ncalls : Nat
  trace : List CheckCall
deriving Repr, DecidableEq

/-- Loop guard of source line 46:
`i < core.size() && 1 < core.size() && (!m_failure_limit || num_failures <= m_failure_limit)`. -/
def bgGuard (limit : Nat) (s : BGState) : Bool :=
  decide (s.i < s.core.length) && decide (1 < s.core.length) &&
    (decide (limit = 0) || decide (s.numFailures ≤ limit))

/-- One iteration of the literal-dropping loop (source lines 47-59):
replace the scanned literal by trivial-true, call `check_inductive`;
on success reset the failure counter and restart the scan at the first
position whose literal is not in `processed`; on failure restore the
literal, mark it processed, count the failure and advance. -/
def bgStep (oracle : Oracle) (level : Nat) (s : BGState) : BGState :=
  let lit := s.core.getD s.i Exp.tt
  let tryCore := s.core.set s.i Exp.tt
  let ans := oracle s.ncalls level tryCore s.ul
  if ans.1 then
    { core := tryCore
      i := (tryCore.findIdx? (fun c => decide (c ∉ s.processed))).getD tryCore.length
      numFailures := 0
      processed := s.processed
      ul := ans.2
      ncalls := s.ncalls + 1
      trace := s.trace ++ [(level, tryCore, true)] }
  else
    { core := tryCore.set s.i lit
      i := s.i + 1
      numFailures := s.numFailures + 1
      processed := s.processed ++ [lit]
      ul := ans.2
      ncalls := s.ncalls + 1
      trace := s.trace ++ [(level, tryCore, false)] }

/-- Fueled unfolding of the while loop of source line 46; `none` means
the loop has not exited within `fuel` iterations. -/
def bgLoop (oracle : Oracle) (level limit : Nat) : Nat → BGState → Option BGState
  | 0, s => if bgGuard limit s then none else some s
  | fuel + 1, s =>
      if bgGuard limit s then bgLoop oracle level limit fuel (bgStep oracle level s)
      else some s

/-- Result of a single-core generalizer invocation: final core, final
`uses_level` flag, and the trace of `check_inductive` calls made. -/
structure GenResult where
  core : List Exp
  ul : Bool
  trace : List CheckCall
deriving Repr, DecidableEq

/-- `core_bool_inductive_generalizer::operator()` (source lines 37-63):
immediate return when `core.size() <= 1` (no oracle call), otherwise the
literal-dropping loop starting at position 0 with no failures and an
empty `processed` vector. -/
def coreBoolInductiveGeneralize (oracle : Oracle) (level limit fuel : Nat)
    (core : List Exp) (ul : Bool) : Option GenResult :=
  if core.length ≤ 1 then some ⟨core, ul, []⟩
  else (bgLoop oracle level limit fuel ⟨core, 0, 0, [], ul, 0, []⟩).map
    (fun s => ⟨s.core, s.ul, s.trace⟩)

-- ------------------------
-- core_multi_generalizer (source lines 66-100)

/-- `core_multi_generalizer::operator()` multi-core form (source lines
75-100).  Note `expr_ref_vector old_core(m)` of source line 77: the
vector `old_core` is declared empty and never assigned from `core`, so
the trial loop of lines 83-99 iterates zero times; the loop body is
nevertheless translated faithfully below.  The single-core form of
source lines 66-68 is `UNREACHABLE()` and has no defined behaviour, so
it is not embedded. -/
def coreMultiGeneralize (oracle : Oracle) (level limit fuel : Nat)
    (core : List Exp) (ul : Bool) : Option (List (List Exp × Bool)) :=
  let oldCore : List Exp := []
  match coreBoolInductiveGeneralize oracle level limit fuel core ul with
  | none => none
  | some r0 =>
    let st0 : List (List Exp × Bool) × List Exp := ([(r0.core, r0.ul)], r0.core)
    ((List.range oldCore.length).foldlM (fun st i =>
        let lit := oldCore.getD i Exp.tt
        if lit ∈ st.2 then
          let core1 := (oldCore.set i (oldCore.getD (oldCore.length - 1) Exp.tt)).dropLast
          match coreBoolInductiveGeneralize oracle level limit fuel core1 ul with
          | none => none
          | some r1 =>
            if r1.core.length < oldCore.length then
              some (st.1 ++ [(r1.core, r1.ul)], st.2.filter (fun e => decide (e ∈ r1.core)))
            else some st
        else some st) st0).map Prod.fst

-- ------------------------
-- core_farkas_generalizer (source lines 115-143)

/-- Result of the Farkas generalizer: final core and flag, the trace of
interpolation requests `(assumption A, consequence)` sent to
`get_lemma_guesses`, and the trace of `check_inductive` calls made —
the latter is always empty because `core_farkas_generalizer::operator()`
(source lines 115-143) contains no `check_inductive` call. -/
structure FGResult where
  core : List Exp
  ul : Bool
  interpCalls : List (Exp × Exp)
  checkCalls : List CheckCall
deriving Repr, DecidableEq

/-- Per-disjunct step of the Farkas loop (source lines 125-135): the
interpolation request of source line 128 passes the full clause `B` as
the consequence (the disjunct stored into `C` at line 127 is dead); on
success the i-th disjunct is replaced by the conjunction of the
returned lemmas and the change flag is set. -/
def fgStep (lemmaGuesses : Exp → Exp → Option (List Exp)) (A B : Exp)
    (st : List Exp × Bool × List (Exp × Exp)) (i : Nat) :
    List Exp × Bool × List (Exp × Exp) :=
  match lemmaGuesses A B with
  | some lemmas => (st.1.set i (mkAnd lemmas), true, st.2.2 ++ [(A, B)])
  | none => (st.1, st.2.1, st.2.2 ++ [(A, B)])

/-- `core_farkas_generalizer::operator()` (source lines 115-143).
`lemmaGuesses` models the external `m_farkas_learner.get_lemma_guesses`
and `propagationFormula` the external
`n.pt().get_propagation_formula(...)`.  Source line 127 stores the
disjunct `Bs[i]` into the dead variable `C`; the interpolation call of
source line 128 passes `(A, B)` — the full clause `B`, not the
disjunct — which is translated faithfully here. -/
def coreFarkasGeneralize (lemmaGuesses : Exp → Exp → Option (List Exp))
    (propagationFormula : Exp) (core : List Exp) (ul : Bool) : FGResult :=
  if core.isEmpty then ⟨core, ul, [], []⟩
  else
    let B := mkAnd core
    let Bs := getOr B
    let A := propagationFormula
    let fin := (List.range Bs.length).foldl (fgStep lemmaGuesses A B) (Bs, false, [])
    if fin.2.1 then ⟨flattenAnd (mkOr fin.1), true, fin.2.2, []⟩
    else ⟨core, ul, fin.2.2, []⟩

-- -----------------------------
-- core_arith_inductive_generalizer (source lines 153-301)

/-- Term-and-literal-index pair stored in the bound maps
(`term_loc_t` of the source). -/
abbrev TermLoc := Exp × Nat

/-- Bound map from magnitude to the terms bounded by it
(`bounds_t` of the source), in insertion order. -/
abbrev BMap := List (Rat × List TermLoc)

/-- Map insertion: append to the entry of the key if present, otherwise
add a new entry (the source map keeps a vector of pairs per key). -/
def bmInsert : BMap → Rat → TermLoc → BMap
  | [], k, v => [(k, [v])]
  | (k', vs) :: rest, k, v =>
      if k = k' then (k', vs ++ [v]) :: rest
      else (k', vs) :: bmInsert rest k v

/-- Map lookup (`m_ub.find(r, terms2)` of the source). -/
def bmFind : BMap → Rat → Option (List TermLoc)
  | [], _ => none
  | (k', vs) :: rest, k => if k = k' then some vs else bmFind rest k

/-- `core_arith_inductive_generalizer::insert_bound` (source lines
210-225): a negative bound value is canonicalized by replacing the term
with its unary negation and inverting the direction; the absolute value
of the bound is the map key. -/
def insertBound (maps : BMap × BMap) (isLower : Bool) (x : Exp) (r : Rat) (i : Nat) :
    BMap × BMap :=
  let xd := if r < 0 then (Exp.uminus x, !isLower) else (x, isLower)
  if xd.2 then (bmInsert maps.1 |r| (xd.1, i), maps.2)
  else (maps.1, bmInsert maps.2 |r| (xd.1, i))

/-- Literal scan of `core_arith_inductive_generalizer::get_eqs` (source
lines 238-254): the four recognized shapes.  The integer-sort test
`a.is_int(x)` appears only in the two negated shapes, exactly as in the
source. -/
def scanLit (maps : BMap × BMap) (i : Nat) (e : Exp) : BMap × BMap :=
  match e with
  | .notE (.le x y) =>
      match numOf y with
      | some r => if sortOf x = ESort.int then insertBound maps true x (r + 1) i else maps
      | none => maps
  | .notE (.ge x y) =>
      match numOf y with
      | some r => if sortOf x = ESort.int then insertBound maps false x (r - 1) i else maps
      | none => maps
  | .le x y =>
      match numOf y with
      | some r => insertBound maps false x r i
      | none => maps
  | .ge x y =>
      match numOf y with
      | some r => insertBound maps true x r i
      | none => maps
  | _ => maps

/-- Bound extraction over a whole core: fold of `scanLit` over the
literals with their indices, starting from empty lower/upper maps. -/
def scanBounds (core : List Exp) : BMap × BMap :=
  core.enum.foldl (fun maps ie => scanLit maps ie.1 ie.2) ([], [])

/-- Candidate equality discovered by `get_eqs` (`struct eq` of the
source: term, magnitude, lower-bound literal index, upper-bound literal
index). -/
structure EqRec where
  term : Exp
  value : Rat
  i : Nat
  j : Nat
deriving Repr, DecidableEq

/-- Inner matching loop of `get_eqs` (source lines 261-280, with its
`done` flag): find the first upper-bound term at the same magnitude that
is literally identical to `t1`, or whose syntactic equality with `t1`
rewrites to true under the external `th_rewriter` (modelled by
`rwOracle`). -/
def findUbMatch (rwOracle : Exp → Exp) (t1 : Exp) : List TermLoc → Option Nat
  | [] => none
  | (t2, l) :: rest =>
      if t1 = t2 then some l
      else if rwOracle (Exp.eqE t1 t2) = Exp.tt then some l
      else findUbMatch rwOracle t1 rest

/-- `core_arith_inductive_generalizer::get_eqs` (source lines 233-283):
scan the core into bound maps, then pair lower-bound terms with
upper-bound terms at every magnitude at least 2 present in both maps. -/
def getEqs (rwOracle : Exp → Exp) (core : List Exp) : List EqRec :=
  let maps := scanBounds core
  maps.1.foldl (fun (eqs : List EqRec) (kv : Rat × List TermLoc) =>
    if 2 ≤ kv.1 then
      match bmFind maps.2 kv.1 with
      | some terms2 =>
          kv.2.foldl (fun (eqs : List EqRec) (tl : TermLoc) =>
            match findUbMatch rwOracle tl.1 terms2 with
            | some l => eqs ++ [⟨tl.1, kv.1, tl.2, l⟩]
            | none => eqs) eqs
      | none => eqs
    else eqs) ([] : List EqRec)

/-- `core_arith_inductive_generalizer::substitute_alias` (source lines
285-301): descend through negations; a literal `y <= z` or `y >= z`
whose numeral `z` equals the bound value `r` is rewritten with the
equality term `x` in place of the numeral. -/
def substituteAlias (r : Rat) (x : Exp) : Exp → Option Exp
  | .notE e1 =>
      match substituteAlias r x e1 with
      | some res => some (.notE res)
      | none => none
  | .le y z =>
      match numOf z with
      | some r2 => if r = r2 then some (.le y x) else none
      | none => none
  | .ge y z =>
      match numOf z with
      | some r2 => if r = r2 then some (.ge y x) else none
      | none => none
  | _ => none

/-- Candidate core of one per-equality trial (source lines 178-193).
The guard of source line 180 is `i == k || k == l` — translated exactly
as written; since the two literal positions `k` and `l` of a discovered
equality are always distinct, position `l` is handled by the alias
substitution branch rather than collapsed.  When the magnitude is at
least 2 and the term is integer-sorted, positions `k` and `l` are then
overwritten by the parity constraint and the upper bound (source lines
190-193). -/
def mkTrialCore (value : Rat) (x : Exp) (k l : Nat) (core : List Exp) : List Exp :=
  let base := (List.range core.length).map (fun i =>
    if i = k ∨ k = l then Exp.tt
    else
      match substituteAlias value x (core.getD i Exp.tt) with
      | some e => e
      | none => core.getD i Exp.tt)
  if 2 ≤ |value| ∧ sortOf x = ESort.int then
    (base.set k (Exp.eqE (Exp.modE x (Exp.num 2 true)) (Exp.num 0 true))).set l
      (Exp.le x (Exp.num value true))
  else base

/-- Per-trial fold state of
`core_arith_inductive_generalizer::operator()`. -/
structure AGState where
  core : List Exp
  ul : Bool
  ncalls : Nat
  trace : List CheckCall
deriving Repr, DecidableEq

/-- Per-equality trial step (source lines 172-207): build the trial
core from the current baseline, call `check_inductive`, accept the
trial exactly when the call returns true, and let the call refine
`uses_level` either way. -/
def agStep (oracle : Oracle) (level : Nat) (st : AGState) (e : EqRec) : AGState :=
  let newCore := mkTrialCore e.value e.term e.i e.j st.core
  let ans := oracle st.ncalls level newCore st.ul
  { core := if ans.1 then newCore else st.core
    ul := ans.2
    ncalls := st.ncalls + 1
    trace := st.trace ++ [(level, newCore, ans.1)] }

/-- `core_arith_inductive_generalizer::operator()` (source lines
159-208): immediate return when `core.size() <= 1` (no oracle call);
otherwise discover equalities on the original core, then fold the
per-equality trial step over them, so that later equalities are tested
against the cumulative effect of earlier accepted rewrites. -/
def coreArithInductiveGeneralize (rwOracle : Exp → Exp) (oracle : Oracle) (level : Nat)
    (core : List Exp) (ul : Bool) : GenResult :=
  if core.length ≤ 1 then ⟨core, ul, []⟩
  else
    let fin := (getEqs rwOracle core).foldl (agStep oracle level) ⟨core, ul, 0, []⟩
    ⟨fin.core, fin.ul, fin.trace⟩

-- -----------------------------
-- core_induction_generalizer (source lines 304-564)

/-- Uninterpreted tail atom or head atom of a Horn-clause rule:
a predicate symbol applied to argument terms. -/
structure Atom where
  decl : FuncDecl
  args : List Exp
deriving Repr, DecidableEq

/-- A datalog rule as consumed by the source: head atom, uninterpreted
tail atoms (`get_tail(i)` for `i < get_uninterpreted_tail_size()`) and
interpreted tail formulas (the remaining tail entries). -/
structure Rule where
  head : Atom
  utail : List Atom
  itail : List Exp
deriving Repr, DecidableEq

/-- Modelled from the spec: the external predicate-transformer state
consumed through the accessors `.head()`, `.sig(i)`, `.rules()` and
`.get_formulas(level, primed)`. -/
structure PredT where
  head : FuncDecl
  sig : List FuncDecl
  rules : List Rule
  formulas : List ((Nat × Bool) × Exp)
deriving Repr, DecidableEq

/-- Modelled from the spec: the `.get_formulas(level, primed)` accessor
of a predicate transformer (frame formula lookup). -/
def getFormulas (pt : PredT) (lvl : Nat) (primed : Bool) : Exp :=
  ((pt.formulas.find? (fun kv => kv.1 == (lvl, primed))).map Prod.snd).getD Exp.tt

/-- Modelled from the spec: the ambient context's predicate-transformer
collection, consumed through `m_ctx.get_pred_transformers().find(f)`. -/
structure Ctx where
  findPT : FuncDecl → PredT

/-- Predicate transformer and frame level of a proof-obligation node
(the only fields of `model_node` the induction generalizer reads). -/
structure NodeInfo where
  pt : PredT
  level : Nat
deriving Repr, DecidableEq

/-- A proof-obligation node as seen by `core_induction_generalizer`:
only the optional parent node is consulted. -/
structure ModelNode where
  parent : Option NodeInfo
deriving Repr, DecidableEq

/-- `core_induction_generalizer::imp::mk_pred` (source lines 329-336):
create the level-indexed predicate symbol `Q_level`. -/
def mkPred (level : Nat) (f : FuncDecl) : FuncDecl :=
  { name := f.name ++ "_" ++ toString level, domain := f.domain, range := f.range }

/-- Modelled from the spec: the external `pm.o2n` renaming of a
signature symbol to its next-state version. -/
def o2n (f : FuncDecl) (k : Nat) : FuncDecl :=
  { name := f.name ++ "_n" ++ toString k, domain := f.domain, range := f.range }

/-- `core_induction_generalizer::imp::mk_reps` (source lines 419-427):
fresh constants for the head signature of a predicate transformer. -/
def mkReps (pt : PredT) : List Exp :=
  (List.range pt.head.domain.length).map (fun i =>
    Exp.app0 (o2n (pt.sig.getD i ⟨"", [], ESort.bool⟩) 0))

/-- Modelled from the spec: the external `var_subst` substitution used
by `mk_transition_rule`; every substitute is a ground constant, so no
de Bruijn shifting is modelled. -/
def substVars (sub : List (Option Exp)) : Exp → Exp
  | .var idx s =>
      match sub.getD idx none with
      | some e => e
      | none => .var idx s
  | .notE e => .notE (substVars sub e)
  | .andB a b => .andB (substVars sub a) (substVars sub b)
  | .orB a b => .orB (substVars sub a) (substVars sub b)
  | .eqE a b => .eqE (substVars sub a) (substVars sub b)
  | .impliesE a b => .impliesE (substVars sub a) (substVars sub b)
  | .iffE a b => .iffE (substVars sub a) (substVars sub b)
  | .le a b => .le (substVars sub a) (substVars sub b)
  | .ge a b => .ge (substVars sub a) (substVars sub b)
  | .modE a b => .modE (substVars sub a) (substVars sub b)
  | .uminus a => .uminus (substVars sub a)
  | .ap g a => .ap (substVars sub g) (substVars sub a)
  | .existsQ ss b => .existsQ ss (substVars sub b)
  | .forallQ ss b => .forallQ ss (substVars sub b)
  | e => e

/-- Modelled from the spec: free-variable collection of the external
`get_free_vars`, listing the de Bruijn indices free at binder depth
`d` together with their sorts. -/
def freeVarsA (d : Nat) : Exp → List (Nat × ESort)
  | .var idx s => if d ≤ idx then [(idx - d, s)] else []
  | .notE e => freeVarsA d e
  | .andB a b => freeVarsA d a ++ freeVarsA d b
  | .orB a b => freeVarsA d a ++ freeVarsA d b
  | .eqE a b => freeVarsA d a ++ freeVarsA d b
  | .impliesE a b => freeVarsA d a ++ freeVarsA d b
  | .iffE a b => freeVarsA d a ++ freeVarsA d b
  | .le a b => freeVarsA d a ++ freeVarsA d b
  | .ge a b => freeVarsA d a ++ freeVarsA d b
  | .modE a b => freeVarsA d a ++ freeVarsA d b
  | .uminus a => freeVarsA d a
  | .ap g a => freeVarsA d g ++ freeVarsA d a
  | .existsQ ss b => freeVarsA (d + ss.length) b
  | .forallQ ss b => freeVarsA (d + ss.length) b
  | _ => []

/-- Modelled from the spec: the external `get_free_vars(result, sorts)`
output, a vector indexed by variable index with `none` at indices that
do not occur free. -/
def freeVarSorts (e : Exp) : List (Option ESort) :=
  let fvs := freeVarsA 0 e
  let width := fvs.foldl (fun m p => max m (p.1 + 1)) 0
  (List.range width).map (fun i => (fvs.find? (fun p => p.1 == i)).map Prod.snd)

/-- Modelled from the spec: the external `expr_abstract`, replacing each
occurrence of the i-th representative constant by the bound variable of
index i. -/
def exprAbstract (reps : List Exp) (e : Exp) : Exp :=
  match reps.enum.find? (fun p => p.2 == e) with
  | some p => .var p.1 (sortOf e)
  | none =>
      match e with
      | .notE a => .notE (exprAbstract reps a)
      | .andB a b => .andB (exprAbstract reps a) (exprAbstract reps b)
      | .orB a b => .orB (exprAbstract reps a) (exprAbstract reps b)
      | .eqE a b => .eqE (exprAbstract reps a) (exprAbstract reps b)
      | .impliesE a b => .impliesE (exprAbstract reps a) (exprAbstract reps b)
      | .iffE a b => .iffE (exprAbstract reps a) (exprAbstract reps b)
      | .le a b => .le (exprAbstract reps a) (exprAbstract reps b)
      | .ge a b => .ge (exprAbstract reps a) (exprAbstract reps b)
      | .modE a b => .modE (exprAbstract reps a) (exprAbstract reps b)
      | .uminus a => .uminus (exprAbstract reps a)
      | .ap g a => .ap (exprAbstract reps g) (exprAbstract reps a)
      | .existsQ ss b => .existsQ ss (exprAbstract reps b)
      | .forallQ ss b => .forallQ ss (exprAbstract reps b)
      | other => other

/-- Growth of a substitution vector to hold index `idx`
(`sub.resize(idx+1)` of source line 363). -/
def padTo (sub : List (Option Exp)) (n : Nat) : List (Option Exp) :=
  sub ++ List.replicate (n - sub.length) none

/-- `core_induction_generalizer::imp::mk_transition_rule` (source lines
341-401): the formula `exists y z. F[Q_{level-1}, x, y, z]` for one
rule.  At level 0 a rule with uninterpreted tail atoms denotes false;
otherwise head arguments are matched against the representative
constants (variables through a substitution vector, duplicate and
non-variable arguments through equations), uninterpreted tail atoms are
renamed to level `level-1` predicates, the interpreted tail is conjoined
verbatim, the substitution is applied, and the remaining free variables
are existentially quantified (their collected sorts reversed, unknown
sorts defaulting to bool). -/
def mkTransitionRule (reps : List Exp) (level : Nat) (rule : Rule) : Exp :=
  if level = 0 ∧ 0 < rule.utail.length then Exp.ff
  else
    let cs := (rule.head.args.zip reps).foldl
      (fun (st : List Exp × List (Option Exp)) (ar : Exp × Exp) =>
        match ar.1 with
        | .var idx _ =>
            let sub := padTo st.2 (idx + 1)
            match sub.getD idx none with
            | some s => (st.1 ++ [Exp.eqE s ar.2], sub)
            | none => (st.1, sub.set idx (some ar.2))
        | _ => (st.1 ++ [Exp.eqE ar.1 ar.2], st.2))
      ([], [])
    let conj := cs.1
      ++ (if 0 < level then rule.utail.map (fun a => mkApp (mkPred (level - 1) a.decl) a.args)
          else [])
      ++ rule.itail
    let result := mkAnd conj
    let result := if cs.2.isEmpty then result else substVars cs.2 result
    let sorts := (freeVarSorts result).map (fun o => o.getD ESort.bool)
    if sorts.isEmpty then result else Exp.existsQ sorts.reverse result

/-- `core_induction_generalizer::imp::bind_head` (source lines 403-417):
abstract the representative constants and universally quantify them
(sorts pushed in reverse order, as in the source). -/
def bindHead (reps : List Exp) (fml : Exp) : Exp :=
  let result := exprAbstract reps fml
  let sorts := (List.range reps.length).map
    (fun i => sortOf (reps.getD (reps.length - i - 1) Exp.tt))
  if 0 < reps.length then Exp.forallQ sorts result else result

/-- `core_induction_generalizer::imp::mk_transition_axiom` (source lines
434-446): `forall x. Q_level(x) <=> exists y z. F[...]`, the disjunction
running over the transformer's rules (false when there are none). -/
def mkTransitionAxiom (pt : PredT) (level : Nat) : Exp :=
  let reps := mkReps pt
  let fml := pt.rules.enum.foldl
    (fun (fml : Exp) (ir : Nat × Rule) =>
      let tr := mkTransitionRule reps level ir.2
      if ir.1 = 0 then tr else Exp.orB fml tr)
    Exp.ff
  bindHead reps (Exp.iffE (mkApp (mkPred level pt.head) reps) fml)

/-- `core_induction_generalizer::imp::mk_predicate_property` (source
lines 452-459): `forall x. Q_level(x) => phi(x)`. -/
def mkPredicateProperty (level : Nat) (pt : PredT) (phi : Exp) : Exp :=
  let reps := mkReps pt
  bindHead reps (Exp.impliesE (mkApp (mkPred level pt.head) reps) phi)

/-- `core_induction_generalizer::imp::mk_blocked_transition` (source
lines 469-480): the conjunction of the negations of all transition
rules, i.e. "no one-step transition into the blocked region is
enabled". -/
def mkBlockedTransition (pt : PredT) (level : Nat) : Exp :=
  let reps := mkReps pt
  mkAnd (pt.rules.map (fun r => Exp.notE (mkTransitionRule reps level r)))

/-- Fuel bound for the worklist expansion of `mk_induction_goal`: a
structural over-approximation of the number of worklist items reachable
from one `(transformer, level)` item; the level of every enqueued child
is one lower, so recursion on the level bounds the tree. -/
def wt (ctx : Ctx) (level depth : Nat) : Nat → PredT → Nat
  | 0, _ => 1
  | l + 1, pt =>
      if l + 1 + depth < level then 1
      else 1 + pt.rules.foldl (fun acc r =>
          r.utail.foldl (fun acc a => acc + wt ctx level depth l (ctx.findPT a.decl)) acc) 0

/-- Worklist state of `mk_induction_goal` (source lines 502-531): the
accumulated conjuncts, the parallel `pts`/`levels` vectors as one item
list, and the queue head index. -/
structure GoalState where
  conjs : List Exp
  items : List (PredT × Nat)
  qhead : Nat

/-- Worklist loop of `mk_induction_goal` (source lines 502-531): each
item contributes its transition axiom and its frame-property formula;
items within the depth window and above level 0 enqueue the predicate
transformers of their rule tails at the next lower level unless an
identical item is already present. -/
def goalLoop (ctx : Ctx) (level depth : Nat) : Nat → GoalState → GoalState
  | 0, s => s
  | fuel + 1, s =>
      match s.items.get? s.qhead with
      | none => s
      | some (qt, lvl) =>
          let conjs := s.conjs ++
            [mkTransitionAxiom qt lvl, mkPredicateProperty lvl qt (getFormulas qt lvl true)]
          let items :=
            if lvl + depth < level ∨ lvl = 0 then s.items
            else qt.rules.foldl (fun its r =>
              r.utail.foldl (fun (its : List (PredT × Nat)) a =>
                let rt := ctx.findPT a.decl
                if its.any (fun pl => pl.1 == rt && pl.2 + 1 == lvl) then its
                else its ++ [(rt, lvl - 1)]) its) s.items
          goalLoop ctx level depth fuel ⟨conjs, items, s.qhead + 1⟩

/-- `core_induction_generalizer::imp::mk_induction_goal` (source lines
482-536): negated goal at `level`, induction hypotheses for the levels
`[level-depth, level)` above 0 (the C++ loop uses unsigned arithmetic,
so when `level < depth` the wrapped start index makes the loop run zero
times, which the `level < depth` test models), then the worklist closure
and the conjunction of everything collected. -/
def mkInductionGoal (ctx : Ctx) (pt : PredT) (level depth : Nat) : Exp :=
  let phi := mkBlockedTransition pt level
  let conjs0 := [Exp.notE (mkPredicateProperty level pt phi)]
  let items0 := [(pt, level)]
  let ihLvls : List Nat := if level < depth then [] else List.range' (level - depth) depth
  let st1 := ihLvls.foldl
    (fun (st : List Exp × List (PredT × Nat)) lvl =>
      if 0 < lvl then
        (st.1 ++ [mkPredicateProperty lvl pt (mkBlockedTransition pt lvl)],
          st.2 ++ [(pt, lvl)])
      else st)
    (conjs0, items0)
  let fuel := st1.2.foldl (fun a pl => a + wt ctx level depth pl.2 pl.1) 0
  let fin := goalLoop ctx level depth fuel ⟨st1.1, st1.2, 0⟩
  mkAnd fin.conjs

/-- Result of the induction generalizer: final core, final `uses_level`
flag, and the queries discharged by the fresh solver instance. -/
structure IGResult where
  core : List Exp
  ul : Bool
  solverQueries : List Exp
deriving Repr, DecidableEq

/-- `core_induction_generalizer::operator()` (source lines 542-564):
no-op without a parent (no solver call); otherwise build the induction
goal for the parent's transformer and level at depth 2, discharge it
with the external solver (`smt::kernel`), and on an unsat answer replace
the core by the single literal `not(blocked-transition)` at the parent's
level and set `uses_level`; otherwise leave core and flag unchanged. -/
def coreInductionGeneralize (ctx : Ctx) (solver : Exp → LBool) (n : ModelNode)
    (core : List Exp) (ul : Bool) : IGResult :=
  match n.parent with
  | none => ⟨core, ul, []⟩
  | some p =>
      let depth := 2
      let goal := mkInductionGoal ctx p.pt p.level depth
      let r := solver goal
      if r = LBool.lFalse then
        ⟨[Exp.notE (mkBlockedTransition p.pt p.level)], true, [goal]⟩
      else ⟨core, ul, [goal]⟩

-- -----------------------------
-- Concrete instances used by witnesses and counterexamples

/-- Nullary boolean symbol `a`. -/
def aD : FuncDecl := ⟨"a", [], ESort.bool⟩

/-- Nullary boolean symbol `b`. -/
def bD : FuncDecl := ⟨"b", [], ESort.bool⟩

/-- Nullary boolean symbol `c`. -/
def cD : FuncDecl := ⟨"c", [], ESort.bool⟩

/-- Boolean literal `a`. -/
def litA : Exp := Exp.app0 aD

/-- Boolean literal `b`. -/
def litB : Exp := Exp.app0 bD

/-- Boolean literal `c`. -/
def litC : Exp := Exp.app0 cD

/-- Real-sorted constant `y`. -/
def yR : Exp := Exp.app0 ⟨"y", [], ESort.real⟩

/-- Integer-sorted constant `x`. -/
def xI : Exp := Exp.app0 ⟨"x", [], ESort.int⟩

/-- Real numeral 4. -/
def num4r : Exp := Exp.num 4 false

/-- Integer numeral 4. -/
def num4i : Exp := Exp.num 4 true

/-- An oracle behaviour whose every answer is "inductive" and which
passes `uses_level` through unchanged. -/
def oracleTrue : Oracle := fun _ _ _ u => (true, u)

/-- An oracle behaviour answering "inductive" exactly on the first call
and passing `uses_level` through unchanged. -/
def oracle01 : Oracle := fun n _ _ u => (n = 0, u)

/-- An oracle behaviour whose every answer is "not inductive". -/
def oracleF : Oracle := fun _ _ _ u => (false, u)

/-- An interpolation behaviour succeeding exactly when the consequence
is the disjunct `a`. -/
def glA : Exp → Exp → Option (List Exp) := fun _ t => if t = litA then some [litC] else none

/-- An interpolation behaviour that always returns the two lemmas
`b`, `c`. -/
def glAll : Exp → Exp → Option (List Exp) := fun _ _ => some [litB, litC]

/-- Real-valued pinned core `{y >= 4, y <= 4, b}`. -/
def coreReal : List Exp := [Exp.ge yR num4r, Exp.le yR num4r, litB]

/-- Integer-valued pinned core `{x >= 4, x <= 4, b}`. -/
def coreInt : List Exp := [Exp.ge xI num4i, Exp.le xI num4i, litB]

/-- Unary integer predicate symbol `P`. -/
def pD : FuncDecl := ⟨"P", [ESort.int], ESort.bool⟩

/-- A recursive Horn rule `P(x) <- P(x), x <= 5`. -/
def rule1 : Rule := ⟨⟨pD, [Exp.var 0 ESort.int]⟩, [⟨pD, [Exp.var 0 ESort.int]⟩],
  [Exp.le (Exp.var 0 ESort.int) (Exp.num 5 true)]⟩

/-- A concrete predicate transformer for `P`. -/
def ptP : PredT := ⟨pD, [⟨"x0", [], ESort.int⟩], [rule1], [((2, true), litA)]⟩

/-- A concrete context mapping every symbol to `ptP`. -/
def ctx1 : Ctx := ⟨fun _ => ptP⟩

/-- A node whose parent has transformer `ptP` at level 3. -/
def nodeP : ModelNode := ⟨some ⟨ptP, 3⟩⟩

/-- A root node (no parent). -/
def nodeRoot : ModelNode := ⟨none⟩

/-- A solver behaviour that always reports unsatisfiable. -/
def solvU : Exp → LBool := fun _ => LBool.lFalse

/-- Divergence of the literal-dropping loop: no amount of fuel makes the
fueled unfolding of the while loop of source line 46 exit. -/
def boolGenDiverges (oracle : Oracle) (level limit : Nat) (core : List Exp) (ul : Bool) : Prop :=
  ∀ fuel : Nat, coreBoolInductiveGeneralize oracle level limit fuel core ul = none

/-- The result of the bool generalizer on `{a, b}` under `oracle01`:
the first literal is replaced by trivial-true in place. -/
def r8 : GenResult :=
  ⟨[Exp.tt, litB], false,
    [(3, [Exp.tt, litB], true), (3, [Exp.tt, litB], false), (3, [Exp.tt, Exp.tt], false)]⟩

/-- The result of the bool generalizer on `{a, b}` under `oracle01`
when `uses_level` is true at entry. -/
def r6 : GenResult :=
  ⟨[Exp.tt, litB], true,
    [(3, [Exp.tt, litB], true), (3, [Exp.tt, litB], false), (3, [Exp.tt, Exp.tt], false)]⟩

-- -----------------------------
-- Helper lemmas

/-- Writing back the element read at a position leaves a list unchanged. -/
theorem set_self_getD {α : Type} : ∀ (l : List α) (i : Nat) (d : α),
    l.set i (l.getD i d) = l
  | [], _, _ => rfl
  | _ :: _, 0, _ => rfl
  | a :: l, i + 1, d => congrArg (List.cons a) (set_self_getD l i d)

/-- Reading the position just written with the written element as the
default always returns the written element. -/
theorem getD_set_self {α : Type} : ∀ (l : List α) (i : Nat) (a : α),
    (l.set i a).getD i a = a
  | [], _, _ => rfl
  | _ :: _, 0, _ => rfl
  | _ :: l, i + 1, a => getD_set_self l i a

/-- Reading away from the written position is unaffected by a write. -/
theorem getD_set_ne {α : Type} : ∀ (l : List α) (i j : Nat) (a d : α), i ≠ j →
    (l.set i a).getD j d = l.getD j d
  | [], _, _, _, _, _ => rfl
  | _ :: _, 0, 0, _, _, h => absurd rfl h
  | _ :: _, 0, _ + 1, _, _, _ => rfl
  | _ :: _, _ + 1, 0, _, _, _ => rfl
  | _ :: l, i + 1, j + 1, a, d, h =>
      getD_set_ne l i j a d (fun hh => h (congrArg Nat.succ hh))

/-- A fold preserves any property preserved by its step function. -/
theorem foldl_inv {α β : Type} (f : β → α → β) (P : β → Prop)
    (hf : ∀ b a, P b → P (f b a)) : ∀ (l : List α) (b : β), P b → P (l.foldl f b)
  | [], _, hb => hb
  | a :: l, b, hb => foldl_inv f P hf l (f b a) (hf b a hb)

/-- Closed form of one literal-dropping iteration, by case on the
oracle answer; on failure the two writes at the scan position cancel
and the core is restored. -/
theorem bgStep_eq (oracle : Oracle) (level : Nat) (s : BGState) :
    bgStep oracle level s =
      if (oracle s.ncalls level (s.core.set s.i Exp.tt) s.ul).1 then
        ⟨s.core.set s.i Exp.tt,
          ((s.core.set s.i Exp.tt).findIdx? (fun c => decide (c ∉ s.processed))).getD
            (s.core.set s.i Exp.tt).length,
          0, s.processed, (oracle s.ncalls level (s.core.set s.i Exp.tt) s.ul).2,
          s.ncalls + 1, s.trace ++ [(level, s.core.set s.i Exp.tt, true)]⟩
      else
        ⟨s.core, s.i + 1, s.numFailures + 1, s.processed ++ [s.core.getD s.i Exp.tt],
          (oracle s.ncalls level (s.core.set s.i Exp.tt) s.ul).2,
          s.ncalls + 1, s.trace ++ [(level, s.core.set s.i Exp.tt, false)]⟩ := by
  by_cases h : (oracle s.ncalls level (s.core.set s.i Exp.tt) s.ul).1 = true
  · simp only [bgStep, h, if_true]
  · rw [Bool.not_eq_true] at h
    simp only [bgStep, h, Bool.false_eq_true, if_false, List.set_set, set_self_getD]

/-- Invariants preserved by the loop step survive to the loop exit. -/
theorem bgLoop_inv (oracle : Oracle) (level limit : Nat) (P : BGState → Prop)
    (hstep : ∀ s, P s → P (bgStep oracle level s)) :
    ∀ (fuel : Nat) (s s' : BGState), P s → bgLoop oracle level limit fuel s = some s' → P s' := by
  intro fuel
  induction fuel with
  | zero =>
      intro s s' hP h
      unfold bgLoop at h
      split at h
      · exact Option.noConfusion h
      · exact Option.some.inj h ▸ hP
  | succ n ih =>
      intro s s' hP h
      unfold bgLoop at h
      split at h
      · exact ih (bgStep oracle level s) s' (hstep s hP) h
      · exact Option.some.inj h ▸ hP

/-- The loop step preserves the length of the core. -/
theorem bgStep_length (oracle : Oracle) (level : Nat) (s : BGState) :
    (bgStep oracle level s).core.length = s.core.length := by
  rw [bgStep_eq]; split
  · exact List.length_set s.core s.i Exp.tt
  · rfl

/-- The loop step makes exactly one oracle call. -/
theorem bgStep_ncalls (oracle : Oracle) (level : Nat) (s : BGState) :
    (bgStep oracle level s).ncalls = s.ncalls + 1 := by
  rw [bgStep_eq]; split <;> rfl

/-- Once every further oracle answer is negative, the scan position
increases every iteration and the loop exits within the remaining
distance to the end of the core. -/
theorem bgLoop_exits_after (oracle : Oracle) (level limit N : Nat)
    (h : ∀ n c u, N ≤ n → (oracle n level c u).1 = false) :
    ∀ (m : Nat) (s : BGState), s.core.length ≤ s.i + m → N ≤ s.ncalls →
      ∃ r, bgLoop oracle level limit m s = some r := by
  intro m
  induction m with
  | zero =>
      intro s hlen hN
      have hg : bgGuard limit s = false := by
        unfold bgGuard
        rw [decide_eq_false (by omega : ¬ s.i < s.core.length)]
        simp
      refine ⟨s, ?_⟩
      unfold bgLoop
      rw [hg]
      rfl
  | succ m ih =>
      intro s hlen hN
      unfold bgLoop
      by_cases hg : bgGuard limit s = true
      · rw [if_pos hg]
        have hst : bgStep oracle level s =
            ⟨s.core, s.i + 1, s.numFailures + 1, s.processed ++ [s.core.getD s.i Exp.tt],
              (oracle s.ncalls level (s.core.set s.i Exp.tt) s.ul).2,
              s.ncalls + 1, s.trace ++ [(level, s.core.set s.i Exp.tt, false)]⟩ := by
          rw [bgStep_eq, h s.ncalls (s.core.set s.i Exp.tt) s.ul hN]
          simp
        rw [hst]
        exact ih _ (show s.core.length ≤ s.i + 1 + m by omega) (show N ≤ s.ncalls + 1 by omega)
      · rw [if_neg hg]
        exact ⟨s, rfl⟩

/-- The loop exits for every oracle behaviour that stops answering
"inductive" from some call index on: fuel equal to that index plus the
core length suffices. -/
theorem bgLoop_terminates (oracle : Oracle) (level limit N : Nat)
    (h : ∀ n c u, N ≤ n → (oracle n level c u).1 = false) :
    ∀ (m : Nat) (s : BGState), N ≤ s.ncalls + m →
      ∃ r, bgLoop oracle level limit (m + s.core.length) s = some r := by
  intro m
  induction m with
  | zero =>
      intro s hN
      have := bgLoop_exits_after oracle level limit N h s.core.length s (by omega) (by omega)
      simpa using this
  | succ m ih =>
      intro s hN
      have hsucc : m + 1 + s.core.length = (m + s.core.length) + 1 := by omega
      rw [hsucc]
      unfold bgLoop
      by_cases hg : bgGuard limit s = true
      · rw [if_pos hg]
        have hlen := bgStep_length oracle level s
        have hnc := bgStep_ncalls oracle level s
        have hres := ih (bgStep oracle level s) (by omega)
        rw [hlen] at hres
        exact hres
      · rw [if_neg hg]
        exact ⟨s, rfl⟩

/-- Under a constantly-inductive oracle the loop revisits position 0 of
an already-trivialized core forever: the guard never fails from any
state scanning position 0 of the core `{true, b}` with nothing
processed. -/
theorem bgLoop_true_none : ∀ (fuel : Nat) (s : BGState),
    s.i = 0 → s.core = [Exp.tt, litB] → s.processed = [] →
    bgLoop oracleTrue 3 0 fuel s = none := by
  intro fuel
  induction fuel with
  | zero =>
      intro s h1 h2 h3
      have hg : bgGuard 0 s = true := by simp [bgGuard, h1, h2]
      unfold bgLoop
      rw [hg]
      rfl
  | succ n ih =>
      intro s h1 h2 h3
      have hg : bgGuard 0 s = true := by simp [bgGuard, h1, h2]
      have hstep : bgStep oracleTrue 3 s =
          ⟨[Exp.tt, litB], 0, 0, [], s.ul, s.ncalls + 1,
            s.trace ++ [(3, [Exp.tt, litB], true)]⟩ := by
        rw [bgStep_eq]
        rw [h1, h2, h3]
        simp [oracleTrue]
      unfold bgLoop
      rw [hg]
      simp only [if_true]
      rw [hstep]
      exact ih _ rfl rfl rfl

/-- Claim C5 counterexample: the literal-dropping loop of
`core_bool_inductive_generalizer::operator()` does not terminate for
every oracle behaviour: under an oracle that always answers
"inductive", on the two-literal core `{a, b}` with `m_failure_limit = 0`,
the loop re-trials the trivialized position 0 forever, so no fuel makes
the fueled unfolding exit. -/
theorem c5_counterexample : boolGenDiverges oracleTrue 3 0 [litA, litB] false := by
  intro fuel
  unfold coreBoolInductiveGeneralize
  rw [if_neg (by decide)]
  cases fuel with
  | zero =>
      unfold bgLoop
      rw [show bgGuard 0 ⟨[litA, litB], 0, 0, [], false, 0, []⟩ = true by decide]
      rfl
  | succ n =>
      unfold bgLoop
      rw [show bgGuard 0 ⟨[litA, litB], 0, 0, [], false, 0, []⟩ = true by decide]
      simp only [if_true]
      rw [bgLoop_true_none n (bgStep oracleTrue 3 ⟨[litA, litB], 0, 0, [], false, 0, []⟩)
        (by decide) (by decide) (by decide)]
      rfl

/-- Claim C5 (amended): the literal-dropping loop terminates whenever
the oracle answers "inductive" at most finitely often — from call index
`N` on every answer is negative — and fuel `N` plus the core length
suffices; it exits exactly through the loop guard (scan position past
the core, or failure counter beyond a nonzero `m_failure_limit`; the
core-size conjunct of the guard never changes inside the loop). -/
theorem c5_theorem (oracle : Oracle) (level limit N : Nat) (core : List Exp) (ul : Bool)
    (h : ∀ n c u, N ≤ n → (oracle n level c u).1 = false) :
    ∃ r, coreBoolInductiveGeneralize oracle level limit (N + core.length) core ul = some r := by
  unfold coreBoolInductiveGeneralize
  by_cases hlen : core.length ≤ 1
  · rw [if_pos hlen]
    exact ⟨⟨core, ul, []⟩, rfl⟩
  · rw [if_neg hlen]
    obtain ⟨r, hr⟩ :=
      bgLoop_terminates oracle level limit N h N ⟨core, 0, 0, [], ul, 0, []⟩ (by omega)
    have hr' : bgLoop oracle level limit (N + core.length) ⟨core, 0, 0, [], ul, 0, []⟩ = some r := hr
    rw [hr']
    exact ⟨⟨r.core, r.ul, r.trace⟩, rfl⟩

/-- Claim C5 witness: the always-failing oracle satisfies the finiteness
hypothesis with `N = 0`, and the loop indeed exits on `{a, b}`. -/
theorem c5_witness :
    ∃ r, coreBoolInductiveGeneralize oracleF 3 0 (0 + ([litA, litB] : List Exp).length)
      [litA, litB] false = some r :=
  c5_theorem oracleF 3 0 0 [litA, litB] false (fun _ _ _ _ => rfl)

/-- Claim C8 counterexample: the bool generalizer's output core can
contain the trivial-true literal, which was not present in the input:
"dropping" a literal replaces it in place by trivial-true rather than
removing it, so the output is not a sub-multiset of the input literals
(and the output size equals, rather than shrinks below, the input
size). -/
theorem c8_counterexample :
    coreBoolInductiveGeneralize oracle01 3 0 10 [litA, litB] false = some r8 ∧
    Exp.tt ∈ r8.core ∧ Exp.tt ∉ [litA, litB] := by decide

/-- Claim C8 (amended): the output core of the bool generalizer has
exactly the length of the input core, and every position holds either
its original input literal, unmodified, or the trivial-true literal;
in particular every literal of the output other than trivial-true was
present unmodified at the same position of the input. -/
theorem c8_theorem (oracle : Oracle) (level limit fuel : Nat) (core : List Exp) (ul : Bool)
    (r : GenResult) (h : coreBoolInductiveGeneralize oracle level limit fuel core ul = some r) :
    r.core.length = core.length ∧
    ∀ j : Nat, r.core.getD j Exp.tt = core.getD j Exp.tt ∨ r.core.getD j Exp.tt = Exp.tt := by
  unfold coreBoolInductiveGeneralize at h
  split at h
  · cases h
    exact ⟨rfl, fun j => Or.inl rfl⟩
  · rw [Option.map_eq_some'] at h
    obtain ⟨s', hs', hr⟩ := h
    have hP := bgLoop_inv oracle level limit
      (fun s => s.core.length = core.length ∧
        ∀ j : Nat, s.core.getD j Exp.tt = core.getD j Exp.tt ∨ s.core.getD j Exp.tt = Exp.tt)
      (fun s hs => by
        rw [bgStep_eq]
        split
        · refine ⟨by simpa using hs.1, fun j => ?_⟩
          by_cases hj : j = s.i
          · subst hj
            exact Or.inr (getD_set_self s.core s.i Exp.tt)
          · rw [getD_set_ne s.core s.i j Exp.tt Exp.tt (fun hh => hj hh.symm)]
            exact hs.2 j
        · exact hs)
      fuel ⟨core, 0, 0, [], ul, 0, []⟩ s' ⟨rfl, fun j => Or.inl rfl⟩ hs'
    rw [← hr]
    exact hP

/-- Claim C8 witness: the amended positional property at the concrete
run of the counterexample, sampled at positions 0 and 1. -/
theorem c8_witness :
    r8.core.length = ([litA, litB] : List Exp).length ∧
    (r8.core.getD 0 Exp.tt = ([litA, litB] : List Exp).getD 0 Exp.tt ∨
      r8.core.getD 0 Exp.tt = Exp.tt) ∧
    (r8.core.getD 1 Exp.tt = ([litA, litB] : List Exp).getD 1 Exp.tt ∨
      r8.core.getD 1 Exp.tt = Exp.tt) :=
  have T := c8_theorem oracle01 3 0 10 [litA, litB] false r8 (by decide)
  ⟨T.1, T.2 0, T.2 1⟩

/-- Claim C1 counterexample: the Farkas generalizer mutates the
candidate core upon interpolation success without any `check_inductive`
call at all — the mutated core is committed although no inductiveness
re-check returned true on it. -/
theorem c1_counterexample :
    (coreFarkasGeneralize glAll litC [litA] false).core = [litB, litC] ∧
    (coreFarkasGeneralize glAll litC [litA] false).core ≠ [litA] ∧
    (coreFarkasGeneralize glAll litC [litA] false).checkCalls = [] := by decide

/-- Claim C1 (amended): for the bool and arithmetic inductive
generalizers, whenever the output core differs from the input core, a
`check_inductive` call at the node's level returned true on exactly the
output core before it was accepted; the Farkas and induction
generalizers commit mutations without consulting `check_inductive`. -/
theorem c1_theorem (oracle : Oracle) (rwOracle : Exp → Exp) (level limit fuel : Nat)
    (core core2 : List Exp) (ul ul2 : Bool) (r : GenResult)
    (h : coreBoolInductiveGeneralize oracle level limit fuel core ul = some r)
    (hne : r.core ≠ core)
    (hne2 : (coreArithInductiveGeneralize rwOracle oracle level core2 ul2).core ≠ core2) :
    (level, r.core, true) ∈ r.trace ∧
    (level, (coreArithInductiveGeneralize rwOracle oracle level core2 ul2).core, true) ∈
      (coreArithInductiveGeneralize rwOracle oracle level core2 ul2).trace := by
  constructor
  · unfold coreBoolInductiveGeneralize at h
    split at h
    · cases h
      exact absurd rfl hne
    · rw [Option.map_eq_some'] at h
      obtain ⟨s', hs', hr⟩ := h
      have hP := bgLoop_inv oracle level limit
        (fun s => s.core = core ∨ (level, s.core, true) ∈ s.trace)
        (fun s hs => by
          rw [bgStep_eq]
          split
          · exact Or.inr (by simp)
          · rcases hs with hc | hm
            · exact Or.inl hc
            · exact Or.inr (List.mem_append_left _ hm))
        fuel ⟨core, 0, 0, [], ul, 0, []⟩ s' (Or.inl rfl) hs'
      rw [← hr] at hne ⊢
      rcases hP with hc | hm
      · exact absurd hc hne
      · exact hm
  · unfold coreArithInductiveGeneralize at hne2 ⊢
    split at hne2
    · exact absurd rfl hne2
    · rename_i hlen
      rw [if_neg hlen]
      have hP := foldl_inv (agStep oracle level)
        (fun st => st.core = core2 ∨ (level, st.core, true) ∈ st.trace)
        (fun st e hst => by
          unfold agStep
          dsimp only
          by_cases ha :
              (oracle st.ncalls level (mkTrialCore e.value e.term e.i e.j st.core) st.ul).1 = true
          · simp only [ha, if_true]
            exact Or.inr (by simp)
          · rw [Bool.not_eq_true] at ha
            simp only [ha, Bool.false_eq_true, if_false]
            rcases hst with hc | hm
            · exact Or.inl hc
            · exact Or.inr (List.mem_append_left _ hm))
        (getEqs rwOracle core2) ⟨core2, ul2, 0, []⟩ (Or.inl rfl)
      rcases hP with hc | hm
      · exact absurd hc hne2
      · exact hm

/-- Claim C1 witness: concrete runs of the bool generalizer (under
`oracle01`) and of the arithmetic generalizer (on the pinned integer
core) that both mutate their cores, with the committed cores appearing
as positively answered `check_inductive` queries in the traces. -/
theorem c1_witness :
    (3, r8.core, true) ∈ r8.trace ∧
    (3, (coreArithInductiveGeneralize id oracle01 3 coreInt false).core, true) ∈
      (coreArithInductiveGeneralize id oracle01 3 coreInt false).trace :=
  c1_theorem oracle01 id 3 0 10 [litA, litB] coreInt false false r8
    (by decide) (by decide) (by decide)

/-- The bool generalizer's `uses_level` flag stays true when it enters
true, provided the oracle respects its refinement contract (never
resets a true flag). -/
theorem boolGen_ul_mono (oracle : Oracle) (level limit fuel : Nat) (core : List Exp)
    (mono : ∀ k lvl c u, u = true → (oracle k lvl c u).2 = true)
    (r : GenResult) (h : coreBoolInductiveGeneralize oracle level limit fuel core true = some r) :
    r.ul = true := by
  unfold coreBoolInductiveGeneralize at h
  split at h
  · cases h; rfl
  · rw [Option.map_eq_some'] at h
    obtain ⟨s', hs', hr⟩ := h
    have hP := bgLoop_inv oracle level limit (fun s => s.ul = true)
      (fun s hs => by
        rw [bgStep_eq]
        split <;> exact mono _ _ _ _ hs)
      fuel ⟨core, 0, 0, [], true, 0, []⟩ s' rfl hs'
    rw [← hr]
    exact hP

/-- Claim C6: no generalization strategy resets `uses_level` from true
to false: for each of the five strategies, on any input with the flag
true at entry the flag is still true at return (for the strategies that
delegate flag refinement to `check_inductive`, under the oracle's
contract of never resetting a true flag). -/
theorem c6_theorem (oracle : Oracle) (rwOracle : Exp → Exp)
    (lemmaGuesses : Exp → Exp → Option (List Exp)) (ctx : Ctx) (solver : Exp → LBool)
    (A : Exp) (n : ModelNode) (level limit fuel : Nat)
    (core1 core2 core3 core4 core5 : List Exp) (r : GenResult)
    (cs : List (List Exp × Bool)) (p : List Exp × Bool)
    (mono : ∀ k lvl c u, u = true → (oracle k lvl c u).2 = true)
    (h1 : coreBoolInductiveGeneralize oracle level limit fuel core1 true = some r)
    (h4 : coreMultiGeneralize oracle level limit fuel core4 true = some cs)
    (hp : p ∈ cs) :
    r.ul = true ∧
    (coreArithInductiveGeneralize rwOracle oracle level core2 true).ul = true ∧
    (coreFarkasGeneralize lemmaGuesses A core3 true).ul = true ∧
    p.2 = true ∧
    (coreInductionGeneralize ctx solver n core5 true).ul = true := by
  refine ⟨boolGen_ul_mono oracle level limit fuel core1 mono r h1, ?_, ?_, ?_, ?_⟩
  · unfold coreArithInductiveGeneralize
    split
    · rfl
    · exact foldl_inv (agStep oracle level) (fun st => st.ul = true)
        (fun st e hst => by
          unfold agStep
          dsimp only
          exact mono _ _ _ _ hst)
        (getEqs rwOracle core2) ⟨core2, true, 0, []⟩ rfl
  · unfold coreFarkasGeneralize
    split
    · rfl
    · dsimp only
      split
      · rfl
      · rfl
  · unfold coreMultiGeneralize at h4
    cases hbg : coreBoolInductiveGeneralize oracle level limit fuel core4 true with
    | none => rw [hbg] at h4; exact Option.noConfusion h4
    | some r0 =>
        rw [hbg] at h4
        obtain rfl : cs = [(r0.core, r0.ul)] := by simpa using h4.symm
        obtain rfl : p = (r0.core, r0.ul) := by simpa using hp
        exact boolGen_ul_mono oracle level limit fuel core4 mono r0 hbg
  · unfold coreInductionGeneralize
    cases hpar : n.parent with
    | none => rfl
    | some q =>
        dsimp only
        split
        · rfl
        · rfl

/-- Claim C6 witness: concrete runs of all five strategies entered with
`uses_level = true`, under the pass-through oracle `oracle01`, all
return with the flag still true. -/
theorem c6_witness :
    r6.ul = true ∧
    (coreArithInductiveGeneralize id oracle01 3 coreInt true).ul = true ∧
    (coreFarkasGeneralize glAll litC [litA] true).ul = true ∧
    (([Exp.tt, litB], true) : List Exp × Bool).2 = true ∧
    (coreInductionGeneralize ctx1 solvU nodeP [litA] true).ul = true :=
  c6_theorem oracle01 id glAll ctx1 solvU litC nodeP 3 0 10
    [litA, litB] coreInt [litA] [litA, litB] [litA] r6
    [([Exp.tt, litB], true)] ([Exp.tt, litB], true)
    (fun _ _ _ _ h => h) (by decide) (by decide) (by decide)

/-- Claim C7: the induction generalizer is a silent no-op without a
parent (no solver query is issued); with a parent it discharges the
depth-2 induction goal built from the parent's transformer and level,
replaces the core by the single literal `not(blocked-transition)` of
the parent and sets `uses_level` when the solver answers unsat, and
leaves core and flag unchanged when the answer is sat or unknown. -/
theorem c7_theorem (ctx : Ctx) (solver : Exp → LBool) (n : ModelNode) (core : List Exp)
    (ul : Bool) :
    (n.parent = none → coreInductionGeneralize ctx solver n core ul = ⟨core, ul, []⟩) ∧
    (∀ p : NodeInfo, n.parent = some p →
      solver (mkInductionGoal ctx p.pt p.level 2) = LBool.lFalse →
      coreInductionGeneralize ctx solver n core ul =
        ⟨[Exp.notE (mkBlockedTransition p.pt p.level)], true,
          [mkInductionGoal ctx p.pt p.level 2]⟩) ∧
    (∀ p : NodeInfo, n.parent = some p →
      solver (mkInductionGoal ctx p.pt p.level 2) ≠ LBool.lFalse →
      coreInductionGeneralize ctx solver n core ul =
        ⟨core, ul, [mkInductionGoal ctx p.pt p.level 2]⟩) := by
  refine ⟨?_, ?_, ?_⟩
  · intro hp
    unfold coreInductionGeneralize
    rw [hp]
  · intro p hp hs
    unfold coreInductionGeneralize
    rw [hp]
    dsimp only
    rw [if_pos hs]
  · intro p hp hs
    unfold coreInductionGeneralize
    rw [hp]
    dsimp only
    rw [if_neg hs]

/-- Claim C7 witness: on a node whose parent holds `ptP` at level 3,
with an unsat-reporting solver, the core is replaced by the single
blocked-transition literal of the parent, `uses_level` is set, and the
induction goal was the one solver query. -/
theorem c7_witness :
    coreInductionGeneralize ctx1 solvU nodeP [litA, litB] false =
      ⟨[Exp.notE (mkBlockedTransition ptP 3)], true, [mkInductionGoal ctx1 ptP 3 2]⟩ :=
  (c7_theorem ctx1 solvU nodeP [litA, litB] false).2.1 ⟨ptP, 3⟩ rfl rfl

/-- Claim C10: when two calls of the induction generalizer see the same
parent state (transformer and level) and the same ambient context and
solver, the decision and the replacement literal agree regardless of
the input cores: either both replace their core by the same single
blocked-transition literal, or both leave core and flag unchanged. -/
theorem c10_theorem (ctx : Ctx) (solver : Exp → LBool) (n1 n2 : ModelNode) (p : NodeInfo)
    (core1 core2 : List Exp) (ul1 ul2 : Bool)
    (h1 : n1.parent = some p) (h2 : n2.parent = some p) :
    ((coreInductionGeneralize ctx solver n1 core1 ul1).core =
        [Exp.notE (mkBlockedTransition p.pt p.level)] ∧
      (coreInductionGeneralize ctx solver n2 core2 ul2).core =
        [Exp.notE (mkBlockedTransition p.pt p.level)] ∧
      (coreInductionGeneralize ctx solver n1 core1 ul1).core =
        (coreInductionGeneralize ctx solver n2 core2 ul2).core) ∨
    ((coreInductionGeneralize ctx solver n1 core1 ul1) =
        ⟨core1, ul1, [mkInductionGoal ctx p.pt p.level 2]⟩ ∧
      (coreInductionGeneralize ctx solver n2 core2 ul2) =
        ⟨core2, ul2, [mkInductionGoal ctx p.pt p.level 2]⟩) := by
  unfold coreInductionGeneralize
  rw [h1, h2]
  dsimp only
  by_cases hs : solver (mkInductionGoal ctx p.pt p.level 2) = LBool.lFalse
  · left
    rw [if_pos hs, if_pos hs]
    exact ⟨rfl, rfl, rfl⟩
  · right
    rw [if_neg hs, if_neg hs]
    exact ⟨rfl, rfl⟩

/-- Claim C10 witness: two calls on nodes with the same parent but
different input cores and flags; with the unsat-reporting solver both
replace their cores by the same blocked-transition literal. -/
theorem c10_witness :
    ((coreInductionGeneralize ctx1 solvU nodeP [litA] false).core =
        [Exp.notE (mkBlockedTransition ptP 3)] ∧
      (coreInductionGeneralize ctx1 solvU nodeP [litB] true).core =
        [Exp.notE (mkBlockedTransition ptP 3)] ∧
      (coreInductionGeneralize ctx1 solvU nodeP [litA] false).core =
        (coreInductionGeneralize ctx1 solvU nodeP [litB] true).core) ∨
    ((coreInductionGeneralize ctx1 solvU nodeP [litA] false) =
        ⟨[litA], false, [mkInductionGoal ctx1 ptP 3 2]⟩ ∧
      (coreInductionGeneralize ctx1 solvU nodeP [litB] true) =
        ⟨[litB], true, [mkInductionGoal ctx1 ptP 3 2]⟩) :=
  c10_theorem ctx1 solvU nodeP nodeP ⟨ptP, 3⟩ [litA] [litB] false true rfl rfl

/-- Claim C2: evaluation at the failing input.  On the clause core
`{a or b}` the decomposition yields the two disjuncts `a` and `b`, yet
both recorded interpolation requests carry the whole clause `a or b` as
the consequence side (source line 128 passes `B`; the disjunct stored
into `C` at line 127 is dead), so an interpolation behaviour that would
succeed on the disjunct target `a` is never consulted on it and the
core stays unchanged. -/
theorem c2_theorem :
    (coreFarkasGeneralize glA litC [Exp.orB litA litB] false).interpCalls =
      [(litC, Exp.orB litA litB), (litC, Exp.orB litA litB)] ∧
    getOr (mkAnd [Exp.orB litA litB]) = [litA, litB] ∧
    Exp.orB litA litB ≠ litA ∧ Exp.orB litA litB ≠ litB ∧
    (coreFarkasGeneralize glA litC [Exp.orB litA litB] false).core =
      [Exp.orB litA litB] := by decide

/-- Claim C3: evaluation of the dead trial loop.  The vector `old_core`
of source line 77 is declared empty and never assigned from the input
core, so the per-literal trial loop of lines 83-99 never runs and the
returned core set always holds exactly the first minimized core — never
more than one core, for any input and any oracle behaviour. -/
theorem c3_theorem :
    (∀ (oracle : Oracle) (level limit fuel : Nat) (core : List Exp) (ul : Bool),
      ((coreMultiGeneralize oracle level limit fuel core ul).getD []).length ≤ 1) ∧
    coreMultiGeneralize oracleF 3 0 9 [litA, litB, litC] false =
      some [([litA, litB, litC], false)] := by
  constructor
  · intro oracle level limit fuel core ul
    unfold coreMultiGeneralize
    cases coreBoolInductiveGeneralize oracle level limit fuel core ul with
    | none => simp
    | some r0 => simp
  · decide

/-- Claim C4: evaluation at the failing input.  On the real-sorted
pinned core `{y >= 4, y <= 4, b}` the discovered equality has positions
`k = 0`, `l = 1`; because the guard of source line 180 reads
`i == k || k == l` instead of `i == k || i == l`, position `l` is not
collapsed to trivial-true but fed through the alias substitution, which
rewrites `y <= 4` into `y <= y`; the integer parity branch of lines
190-193 does not apply to the real-sorted term and so does not mask
the misplaced guard. -/
theorem c4_theorem :
    getEqs id coreReal = [⟨yR, 4, 0, 1⟩] ∧
    mkTrialCore 4 yR 0 1 coreReal = [Exp.tt, Exp.le yR yR, litB] ∧
    Exp.le yR yR ≠ Exp.tt ∧
    sortOf yR ≠ ESort.int := by decide

/-- Claim C9 counterexample: a plain upper-bound literal `y <= 4` over
the real-sorted term `y` does produce a BoundRecord — the integer-sort
test of the source guards only the two negated shapes (lines 240 and
244), not the plain ones (lines 248-253). -/
theorem c9_counterexample :
    scanBounds [Exp.le yR num4r] = ([], [(4, [(yR, 0)])]) ∧
    sortOf yR ≠ ESort.int := by decide

/-- Claim C9 (amended): bound extraction produces a BoundRecord exactly
for the four shapes with numeral bound — a literal of any other shape
leaves the bound maps untouched — where the two negated shapes
additionally require an integer-sorted term and are normalized to
`r + 1` (lower) and `r - 1` (upper), while the two plain shapes record
for a term of any sort; a negative (normalized) bound value is
canonicalized by replacing the term with its unary negation and
inverting the direction, and the map key is the absolute value of the
bound. -/
theorem c9_theorem (x y e : Exp) (r : Rat) (b : Bool) (i : Nat) (maps : BMap × BMap) :
    (sortOf x = ESort.int → ¬ r + 1 < 0 →
      scanLit maps i (Exp.notE (Exp.le x (Exp.num r b))) =
        (bmInsert maps.1 |r + 1| (x, i), maps.2)) ∧
    (sortOf x = ESort.int → r + 1 < 0 →
      scanLit maps i (Exp.notE (Exp.le x (Exp.num r b))) =
        (maps.1, bmInsert maps.2 |r + 1| (Exp.uminus x, i))) ∧
    (sortOf x = ESort.int → ¬ r - 1 < 0 →
      scanLit maps i (Exp.notE (Exp.ge x (Exp.num r b))) =
        (maps.1, bmInsert maps.2 |r - 1| (x, i))) ∧
    (sortOf x = ESort.int → r - 1 < 0 →
      scanLit maps i (Exp.notE (Exp.ge x (Exp.num r b))) =
        (bmInsert maps.1 |r - 1| (Exp.uminus x, i), maps.2)) ∧
    (¬ sortOf x = ESort.int →
      scanLit maps i (Exp.notE (Exp.le x (Exp.num r b))) = maps ∧
      scanLit maps i (Exp.notE (Exp.ge x (Exp.num r b))) = maps) ∧
    (¬ r < 0 → scanLit maps i (Exp.le x (Exp.num r b)) =
        (maps.1, bmInsert maps.2 |r| (x, i))) ∧
    (¬ r < 0 → scanLit maps i (Exp.ge x (Exp.num r b)) =
        (bmInsert maps.1 |r| (x, i), maps.2)) ∧
    (r < 0 → scanLit maps i (Exp.le x (Exp.num r b)) =
        (bmInsert maps.1 |r| (Exp.uminus x, i), maps.2)) ∧
    (r < 0 → scanLit maps i (Exp.ge x (Exp.num r b)) =
        (maps.1, bmInsert maps.2 |r| (Exp.uminus x, i))) ∧
    (numOf y = none →
      scanLit maps i (Exp.le x y) = maps ∧ scanLit maps i (Exp.ge x y) = maps) ∧
    (scanLit maps i e = maps ∨
      ∃ x' r' b',
        (e = Exp.notE (Exp.le x' (Exp.num r' b')) ∧ sortOf x' = ESort.int) ∨
        (e = Exp.notE (Exp.ge x' (Exp.num r' b')) ∧ sortOf x' = ESort.int) ∨
        e = Exp.le x' (Exp.num r' b') ∨
        e = Exp.ge x' (Exp.num r' b')) := by
  refine ⟨?_, ?_, ?_, ?_, ?_, ?_, ?_, ?_, ?_, ?_, ?_⟩
  · intro hx hr
    simp [scanLit, numOf, insertBound, hx, hr]
  · intro hx hr
    simp [scanLit, numOf, insertBound, hx, hr]
  · intro hx hr
    simp [scanLit, numOf, insertBound, hx, hr]
  · intro hx hr
    simp [scanLit, numOf, insertBound, hx, hr]
  · intro hx
    constructor <;> simp [scanLit, numOf, hx]
  · intro hr
    simp [scanLit, numOf, insertBound, hr]
  · intro hr
    simp [scanLit, numOf, insertBound, hr]
  · intro hr
    simp [scanLit, numOf, insertBound, hr]
  · intro hr
    simp [scanLit, numOf, insertBound, hr]
  · intro hy
    cases y <;> simp_all [scanLit, numOf]
  · cases e
    all_goals try exact Or.inl rfl
    case notE e1 =>
      cases e1
      all_goals try exact Or.inl rfl
      case le x' yy =>
        cases yy
        all_goals try exact Or.inl rfl
        case num r' b' =>
          by_cases hx : sortOf x' = ESort.int
          · exact Or.inr ⟨x', r', b', Or.inl ⟨rfl, hx⟩⟩
          · exact Or.inl (by simp [scanLit, numOf, hx])
      case ge x' yy =>
        cases yy
        all_goals try exact Or.inl rfl
        case num r' b' =>
          by_cases hx : sortOf x' = ESort.int
          · exact Or.inr ⟨x', r', b', Or.inr (Or.inl ⟨rfl, hx⟩)⟩
          · exact Or.inl (by simp [scanLit, numOf, hx])
    case le x' yy =>
      cases yy
      all_goals try exact Or.inl rfl
      case num r' b' =>
        exact Or.inr ⟨x', r', b', Or.inr (Or.inr (Or.inl rfl))⟩
    case ge x' yy =>
      cases yy
      all_goals try exact Or.inl rfl
      case num r' b' =>
        exact Or.inr ⟨x', r', b', Or.inr (Or.inr (Or.inr rfl))⟩

/-- Claim C9 witness: the amended characterization at the integer term
`x`, bound 4: the negated lower-bound shape records `5`, the plain
upper-bound shape records `4`, and a literal outside the four shapes
(the boolean constant `a`) leaves the maps untouched. -/
theorem c9_witness :
    scanLit (([], []) : BMap × BMap) 0 (Exp.notE (Exp.le xI (Exp.num 4 true))) =
      (bmInsert [] |(4 : Rat) + 1| (xI, 0), []) ∧
    scanLit (([], []) : BMap × BMap) 0 (Exp.le xI (Exp.num 4 true)) =
      ([], bmInsert [] |(4 : Rat)| (xI, 0)) ∧
    scanLit (([], []) : BMap × BMap) 0 litA = ([], []) :=
  have T := c9_theorem xI litB litA 4 true 0 ([], [])
  ⟨T.1 (by decide) (by norm_num), T.2.2.2.2.2.1 (by norm_num), by decide⟩
